import Mathlib

/-!
Shallow embedding of the bounded priority queue and thread-safe buffer
from the ELE430 producer-consumer coursework (queue.c / queue.h,
buffer.c, sync.c).  Machine ints are modelled as Lean `Int` (no value in
this program ever approaches the 32-bit overflow boundary, and the spec
speaks of mathematical integers); the array-backed used prefix
`buf[0 .. count)` is modelled as a `List`, with `count` its length; NULL
pointers are modelled with `Option` (or an explicit null flag for out
parameters); `calloc` success and OS primitive outcomes are oracle
parameters.
-/

/-- Message record: queue.h `msg_t`. -/
structure msg_t where
  value : Int
  priority : Int
  producer_id : Int
  seq : Nat
deriving Repr, DecidableEq

/-- Queue record: queue.h `queue_t`.  `buf` holds the used prefix
`buf[0 .. count)` of the backing array, so `count = buf.length`. -/
structure queue_t where
  buf : List msg_t
  capacity : Int
  next_seq : Nat
deriving Repr, DecidableEq

/-- The `count` field of `queue_t`, kept equal to the used-prefix length. -/
def queue_t.count (q : queue_t) : Int := (q.buf.length : Int)

/-- queue.c `queue_init`.  `qNull` models a NULL `q` argument, `allocOk`
models whether `calloc` succeeds.  Returns the C return code together
with the constructed queue (`none` on failure). -/
def queue_init (qNull : Bool) (capacity : Int) (allocOk : Bool) :
    Int × Option queue_t :=
  if qNull ∨ capacity ≤ 0 then (-1, none)
  else if ¬ allocOk then (-2, none)
  else (0, some { buf := [], capacity := capacity, next_seq := 1 })

/-- queue.c `queue_is_full`: `q && (q->count >= q->capacity)`. -/
def queue_is_full : Option queue_t → Bool
  | none => false
  | some q => decide (q.count ≥ q.capacity)

/-- queue.c `queue_is_empty`: `!q || (q->count == 0)`. -/
def queue_is_empty : Option queue_t → Bool
  | none => true
  | some q => decide (q.count = 0)

/-- queue.c `queue_push` (the non-NULL path; the `!q || !m || !q->buf`
guard returns -1 before touching state and is outside this model's
domain).  Returns the C return code and the updated queue. -/
def queue_push (q : queue_t) (m : msg_t) : Int × queue_t :=
  if queue_is_full (some q) then (-2, q)
  else
    (0, { buf := q.buf ++ [{ m with seq := q.next_seq }],
          capacity := q.capacity,
          next_seq := q.next_seq + 1 })

/-- The loop of queue.c `best_index_to_pop`: scan the remaining suffix
`l` starting at global index `i`, carrying the current best index and
message. -/
def best_scan : List msg_t → Nat × msg_t → Nat → Nat × msg_t
  | [], best, _ => best
  | c :: rest, (bi, bm), i =>
    if c.priority > bm.priority then best_scan rest (i, c) (i + 1)
    else if c.priority = bm.priority ∧ c.seq < bm.seq then
      best_scan rest (i, c) (i + 1)
    else best_scan rest (bi, bm) (i + 1)

/-- queue.c `best_index_to_pop` (callers guarantee `count >= 1`;
on an empty queue we return 0, matching the `count == 1` shortcut's
shape). -/
def best_index_to_pop (q : queue_t) : Nat :=
  match q.buf with
  | [] => 0
  | m0 :: rest => (best_scan rest (0, m0) 1).1

/-- queue.c `queue_pop` (non-NULL path).  Returns the C return code, the
updated queue, and the message written through `out` (`none` when the
call fails and `*out` is untouched).  The `memmove` left shift is
`List.eraseIdx`. -/
def queue_pop (q : queue_t) : Int × queue_t × Option msg_t :=
  if queue_is_empty (some q) then (-2, q, none)
  else
    let idx := best_index_to_pop q
    (0, { q with buf := q.buf.eraseIdx idx }, q.buf[idx]?)

/-- sync.c outcome of the final (non-EINTR) `sem_timedwait` attempt. -/
inductive sem_outcome where
  | acquired
  | timedout
  | err
deriving Repr, DecidableEq

/-- sync.c `struct timespec` (mathematical-integer fields). -/
structure timespec where
  tv_sec : Int
  tv_nsec : Int
deriving Repr, DecidableEq

/-- sync.c `add_ms_to_timespec`.  C `/` and `%` on int truncate toward
zero, hence `Int.tdiv` / `Int.tmod`. -/
def add_ms_to_timespec (ts : timespec) (ms : Int) : timespec :=
  let s := ts.tv_sec + ms.tdiv 1000
  let n := ts.tv_nsec + (ms.tmod 1000) * 1000000
  if n ≥ 1000000000 then { tv_sec := s + 1, tv_nsec := n - 1000000000 }
  else { tv_sec := s, tv_nsec := n }

/-- sync.c `sem_timedwait_retry`.  `clockOk` models `clock_gettime`
succeeding; `o` is the outcome of the EINTR-retried `sem_timedwait`. -/
def sem_timedwait_retry (clockOk : Bool) (o : sem_outcome) : Int :=
  if ¬ clockOk then -2
  else
    match o with
    | .acquired => 0
    | .timedout => 1
    | .err => -1

/-- sync.c `sync_timedwait_items` (`sNull` models a NULL `s`). -/
def sync_timedwait_items (sNull : Bool) (clockOk : Bool) (o : sem_outcome) :
    Int :=
  if sNull then -1 else sem_timedwait_retry clockOk o

/-- sync.c `sync_timedwait_slots`. -/
def sync_timedwait_slots (sNull : Bool) (clockOk : Bool) (o : sem_outcome) :
    Int :=
  if sNull then -1 else sem_timedwait_retry clockOk o

/-- buffer.c `buffer_init` (non-NULL `b`; `bNull` models NULL).  `allocOk`
feeds `queue_init`, `syncOk` models `sync_init` succeeding. -/
def buffer_init (bNull : Bool) (capacity : Int) (allocOk syncOk : Bool) :
    Int :=
  if bNull then -1
  else if (queue_init false capacity allocOk).1 ≠ 0 then -2
  else if ¬ syncOk then -3
  else 0

/-- Shared buffer state: the queue plus the two counting semaphores of
sync.c (`slots` free-slot tokens, `items` occupied-slot tokens). -/
structure buffer_t where
  q : queue_t
  slots : Nat
  items : Nat
deriving Repr, DecidableEq

/-- Observable synchronisation events of one buffer call, in program
order, used to state the acquire-mutate-release discipline. -/
inductive sev where
  | waitSlots
  | waitItems
  | postSlots
  | postItems
  | lock
  | unlock
  | mutate
deriving Repr, DecidableEq

/-- buffer.c `buffer_put` (non-NULL arguments).  A blocking
`sync_wait_slots` completes only when a token is available, so the call
is modelled at the rest point where `slots > 0` (`none` = the call is
still blocked, no boundary to observe).  `lockOk` models
`pthread_mutex_lock` succeeding.  Returns the C return code, the state
at return, and the event trace. -/
def buffer_put (lockOk : Bool) (b : buffer_t) (m : msg_t) :
    Option (Int × buffer_t × List sev) :=
  if b.slots = 0 then none
  else
    let b1 : buffer_t := { b with slots := b.slots - 1 }
    if ¬ lockOk then
      some (-3, { b1 with slots := b1.slots + 1 }, [.waitSlots, .postSlots])
    else
      let r := queue_push b1.q m
      if r.1 ≠ 0 then
        some (-4, { b1 with slots := b1.slots + 1 },
          [.waitSlots, .lock, .unlock, .postSlots])
      else
        some (0, { q := r.2, slots := b1.slots, items := b1.items + 1 },
          [.waitSlots, .lock, .mutate, .unlock, .postItems])

/-- buffer.c `buffer_get` (non-NULL arguments), the mirror of
`buffer_put`; third component is the message written through `out`. -/
def buffer_get (lockOk : Bool) (b : buffer_t) :
    Option (Int × buffer_t × Option msg_t × List sev) :=
  if b.items = 0 then none
  else
    let b1 : buffer_t := { b with items := b.items - 1 }
    if ¬ lockOk then
      some (-3, { b1 with items := b1.items + 1 }, none,
        [.waitItems, .postItems])
    else
      let r := queue_pop b1.q
      if r.1 ≠ 0 then
        some (-4, { b1 with items := b1.items + 1 }, none,
          [.waitItems, .lock, .unlock, .postItems])
      else
        some (0, { q := r.2.1, slots := b1.slots + 1, items := b1.items },
          r.2.2, [.waitItems, .lock, .mutate, .unlock, .postSlots])

/-- Oracle for one iteration of an interruptible loop: the stop-flag
values observed at the three `atomic_load`s, the `sync_timedwait`
result, and whether `sync_lock` succeeds. -/
structure intr_oracle where
  stop0 : Bool
  waitRes : Int
  stop1 : Bool
  lockOk : Bool
  stop2 : Bool
deriving Repr, DecidableEq

/-- buffer.c `buffer_put_interruptible` (non-NULL arguments), driven by
one oracle per loop iteration.  `none` means the modelled schedule ended
before the call returned (or a timed wait reported acquisition with no
token present, which the semaphore semantics forbid). -/
def buffer_put_intr (b : buffer_t) (m : msg_t) :
    List intr_oracle → Option (Int × buffer_t)
  | [] => none
  | o :: rest =>
    if o.stop0 then some (1, b)
    else if o.waitRes = 1 then buffer_put_intr b m rest
    else if o.waitRes ≠ 0 then some (-2, b)
    else if b.slots = 0 then none
    else
      let b1 : buffer_t := { b with slots := b.slots - 1 }
      if o.stop1 then some (1, { b1 with slots := b1.slots + 1 })
      else if ¬ o.lockOk then some (-3, { b1 with slots := b1.slots + 1 })
      else if o.stop2 then some (1, { b1 with slots := b1.slots + 1 })
      else
        let r := queue_push b1.q m
        if r.1 ≠ 0 then some (-4, { b1 with slots := b1.slots + 1 })
        else some (0, { q := r.2, slots := b1.slots, items := b1.items + 1 })

/-- buffer.c `buffer_get_interruptible` (non-NULL arguments); third
component is the message written through `out`. -/
def buffer_get_intr (b : buffer_t) :
    List intr_oracle → Option (Int × buffer_t × Option msg_t)
  | [] => none
  | o :: rest =>
    if o.stop0 then some (1, b, none)
    else if o.waitRes = 1 then buffer_get_intr b rest
    else if o.waitRes ≠ 0 then some (-2, b, none)
    else if b.items = 0 then none
    else
      let b1 : buffer_t := { b with items := b.items - 1 }
      if o.stop1 then some (1, { b1 with items := b1.items + 1 }, none)
      else if ¬ o.lockOk then
        some (-3, { b1 with items := b1.items + 1 }, none)
      else if o.stop2 then some (1, { b1 with items := b1.items + 1 }, none)
      else
        let r := queue_pop b1.q
        if r.1 ≠ 0 then some (-4, { b1 with items := b1.items + 1 }, none)
        else
          some (0, { q := r.2.1, slots := b1.slots + 1, items := b1.items },
            r.2.2)

/-- The coupling invariant of buffer.c: the semaphore counts double as
the container's occupancy (`slots + items == capacity`,
`items == count`). -/
def buf_inv (b : buffer_t) : Prop :=
  (b.slots : Int) + (b.items : Int) = b.q.capacity ∧
  (b.items : Int) = b.q.count

/-- A queue-level operation request, for stating state-machine
invariants over arbitrary interleavings. -/
inductive qop where
  | push (m : msg_t)
  | pop
deriving Repr, DecidableEq

/-- Run a list of operations against the bare queue, counting successful
pushes and pops. -/
def run_ops : queue_t × Nat × Nat → List qop → queue_t × Nat × Nat
  | acc, [] => acc
  | (q, sp, sg), qop.push m :: rest =>
    let r := queue_push q m
    run_ops (r.2, if r.1 = 0 then sp + 1 else sp, sg) rest
  | (q, sp, sg), qop.pop :: rest =>
    let r := queue_pop q
    run_ops (r.2.1, sp, if r.1 = 0 then sg + 1 else sg) rest

/-- Drain the queue by repeated `queue_pop`, with explicit fuel. -/
def pop_all_fuel : Nat → queue_t → List msg_t
  | 0, _ => []
  | f + 1, q =>
    let r := queue_pop q
    match r.2.2 with
    | some m => m :: pop_all_fuel f r.2.1
    | none => []

/-- Drain the queue by repeated `queue_pop` until empty. -/
def pop_all (q : queue_t) : List msg_t := pop_all_fuel q.buf.length q

/-- Push a list of messages in order (`foldl` over `queue_push`). -/
def push_all (q : queue_t) (ms : List msg_t) : queue_t :=
  ms.foldl (fun q m => (queue_push q m).2) q

/-- The strict selection order of `best_index_to_pop`: `c` beats `b`
when it has strictly greater priority, or equal priority and a strictly
smaller (earlier) sequence number. -/
def beats (c b : msg_t) : Prop :=
  c.priority > b.priority ∨ (c.priority = b.priority ∧ c.seq < b.seq)

instance : DecidablePred (fun p : msg_t × msg_t => beats p.1 p.2) :=
  fun _ => by unfold beats; infer_instance

instance (c b : msg_t) : Decidable (beats c b) := by
  unfold beats; infer_instance

lemma beats_irrefl (m : msg_t) : ¬ beats m m := by
  unfold beats; omega

lemma beats_asymm {a b : msg_t} (h : beats a b) : ¬ beats b a := by
  unfold beats at *; omega

lemma beats_shift {x y z : msg_t} (h1 : ¬ beats x y) (h2 : beats x z) :
    beats y z := by
  unfold beats at *; omega

lemma beats_resolve {x y : msg_t} (h1 : ¬ beats x y) (h2 : ¬ beats y x)
    (h3 : x.seq ≠ y.seq) : False := by
  unfold beats at *; omega

/-- The loop body of `best_index_to_pop` updates the running best exactly
when the candidate `beats` it. -/
lemma best_scan_cons (c : msg_t) (rest : List msg_t) (bi i : Nat)
    (bm : msg_t) :
    best_scan (c :: rest) (bi, bm) i =
      if beats c bm then best_scan rest (i, c) (i + 1)
      else best_scan rest (bi, bm) (i + 1) := by
  by_cases h1 : c.priority > bm.priority
  · have hb : beats c bm := Or.inl h1
    simp [best_scan, h1, hb]
  · by_cases h2 : c.priority = bm.priority ∧ c.seq < bm.seq
    · have hb : beats c bm := Or.inr h2
      simp [best_scan, h1, h2, hb]
    · have hb : ¬ beats c bm := by unfold beats; tauto
      simp [best_scan, h1, h2, hb]

/-- The scan's final best is located at the index it reports, relative to
the already-scanned prefix `pre`. -/
lemma best_scan_get :
    ∀ (l pre : List msg_t) (bi : Nat) (bm : msg_t),
      pre[bi]? = some bm →
      (pre ++ l)[(best_scan l (bi, bm) pre.length).1]? =
        some (best_scan l (bi, bm) pre.length).2
  | [], pre, bi, bm, h => by
    simpa [best_scan] using h
  | c :: rest, pre, bi, bm, h => by
    rw [best_scan_cons]
    have hlen : (pre ++ [c]).length = pre.length + 1 := by simp
    have hassoc : pre ++ c :: rest = (pre ++ [c]) ++ rest := by simp
    split_ifs with hb
    · have hget : (pre ++ [c])[pre.length]? = some c :=
        List.getElem?_concat_length pre c
      have := best_scan_get rest (pre ++ [c]) pre.length c hget
      rw [hlen] at this
      rw [hassoc]
      exact this
    · have hbi : bi < pre.length := by
        have := List.getElem?_eq_some_iff.mp h
        exact this.1
      have hget : (pre ++ [c])[bi]? = some bm := by
        rw [List.getElem?_append_left hbi]; exact h
      have := best_scan_get rest (pre ++ [c]) bi bm hget
      rw [hlen] at this
      rw [hassoc]
      exact this

/-- No message among the current best and the unscanned suffix beats the
scan's final best. -/
lemma best_scan_dom :
    ∀ (l : List msg_t) (bi i : Nat) (bm : msg_t),
      ∀ x ∈ bm :: l, ¬ beats x (best_scan l (bi, bm) i).2
  | [], bi, i, bm, x, hx => by
    simp only [List.mem_singleton] at hx
    subst hx
    simpa [best_scan] using beats_irrefl x
  | c :: rest, bi, i, bm, x, hx => by
    rw [best_scan_cons]
    split_ifs with hb
    · have ih := best_scan_dom rest i (i + 1) c
      rcases List.mem_cons.mp hx with rfl | hx'
      · have hc : ¬ beats c (best_scan rest (i, c) (i + 1)).2 :=
          ih c (List.mem_cons_self c rest)
        exact beats_asymm (beats_shift hc hb)
      · exact ih x hx'
    · have ih := best_scan_dom rest bi (i + 1) bm
      rcases List.mem_cons.mp hx with rfl | hx'
      · exact ih x (List.mem_cons_self x rest)
      · rcases List.mem_cons.mp hx' with rfl | hx''
        · intro hcontra
          exact ih bm (List.mem_cons_self bm rest) (beats_shift hb hcontra)
        · exact ih x (List.mem_cons.mpr (Or.inr hx''))

/-- On a non-empty queue, `queue_pop` succeeds, removes the element at
`best_index_to_pop`, returns it, and that element is beaten by no held
message. -/
lemma queue_pop_success (q : queue_t) (h : q.buf ≠ []) :
    ∃ out,
      queue_pop q =
        (0, { q with buf := q.buf.eraseIdx (best_index_to_pop q) },
          some out) ∧
      q.buf[best_index_to_pop q]? = some out ∧
      (∀ x ∈ q.buf, ¬ beats x out) ∧
      q.buf.Perm (out :: q.buf.eraseIdx (best_index_to_pop q)) := by
  obtain ⟨m0, rest, hq⟩ : ∃ m0 rest, q.buf = m0 :: rest := by
    cases hq : q.buf with
    | nil => exact absurd hq h
    | cons a l => exact ⟨a, l, rfl⟩
  have hidx : best_index_to_pop q = (best_scan rest (0, m0) 1).1 := by
    simp [best_index_to_pop, hq]
  have hpre : ([m0] : List msg_t)[0]? = some m0 := rfl
  have hget := best_scan_get rest [m0] 0 m0 hpre
  simp only [List.length_singleton, List.singleton_append] at hget
  rw [← hq] at hget
  rw [← hidx] at hget
  have hdom := best_scan_dom rest 0 1 m0
  refine ⟨(best_scan rest (0, m0) 1).2, ?_, hget, ?_, ?_⟩
  · have hne : ¬ queue_t.count q = 0 := by
      simp only [queue_t.count, hq, List.length_cons]
      omega
    have hnemp : queue_is_empty (some q) = false := by
      simp [queue_is_empty, hne]
    simp [queue_pop, hnemp, hget]
  · intro x hx
    rw [hq] at hx
    exact hdom x hx
  · obtain ⟨hlt, hval⟩ := List.getElem?_eq_some_iff.mp hget
    have h1 : q.buf.take (best_index_to_pop q) ++
        q.buf[best_index_to_pop q] :: q.buf.drop (best_index_to_pop q + 1) =
        q.buf := by
      rw [List.getElem_cons_drop, List.take_append_drop]
    have h2 := @List.perm_middle msg_t (q.buf[best_index_to_pop q])
      (q.buf.take (best_index_to_pop q))
      (q.buf.drop (best_index_to_pop q + 1))
    rw [h1] at h2
    rw [List.eraseIdx_eq_take_drop_succ, ← hval]
    exact h2

/-- With pairwise-distinct sequence numbers, the popped message strictly
beats every message left behind. -/
lemma queue_pop_strict (q : queue_t) (h : q.buf ≠ [])
    (hd : q.buf.Pairwise (fun a b => a.seq ≠ b.seq)) :
    ∃ out,
      queue_pop q =
        (0, { q with buf := q.buf.eraseIdx (best_index_to_pop q) },
          some out) ∧
      (∀ x ∈ q.buf.eraseIdx (best_index_to_pop q), beats out x) ∧
      q.buf.Perm (out :: q.buf.eraseIdx (best_index_to_pop q)) := by
  obtain ⟨out, hpop, _, hnb, hperm⟩ := queue_pop_success q h
  refine ⟨out, hpop, ?_, hperm⟩
  intro x hx
  have hsym : ∀ {a b : msg_t}, a.seq ≠ b.seq → b.seq ≠ a.seq :=
    fun hab => hab.symm
  have hd' : (out :: q.buf.eraseIdx (best_index_to_pop q)).Pairwise
      (fun a b => a.seq ≠ b.seq) :=
    (List.Perm.pairwise_iff hsym hperm).mp hd
  have hne : out.seq ≠ x.seq := (List.pairwise_cons.mp hd').1 x hx
  have hxin : x ∈ q.buf :=
    (List.eraseIdx_sublist q.buf (best_index_to_pop q)).subset hx
  by_contra hno
  exact beats_resolve (hnb x hxin) hno (fun hs => hne hs.symm)

/-- Given enough fuel, draining by `queue_pop` yields a permutation of
the held messages, sorted strictly by the `beats` order (priority
descending, sequence ascending within a priority). -/
lemma pop_all_fuel_spec :
    ∀ (f : Nat) (q : queue_t),
      q.buf.length ≤ f →
      q.buf.Pairwise (fun a b => a.seq ≠ b.seq) →
      q.buf.Perm (pop_all_fuel f q) ∧ (pop_all_fuel f q).Pairwise beats
  | 0, q, hf, _ => by
    have : q.buf = [] := List.length_eq_zero.mp (Nat.le_zero.mp hf)
    simp [pop_all_fuel, this]
  | f + 1, q, hf, hd => by
    by_cases hb : q.buf = []
    · have hne : queue_t.count q = 0 := by simp [queue_t.count, hb]
      simp [pop_all_fuel, queue_pop, queue_is_empty, hne, hb]
    · obtain ⟨out, hpop, hstr, hperm⟩ := queue_pop_strict q hb hd
      have hstep : pop_all_fuel (f + 1) q =
          out :: pop_all_fuel f
            { q with buf := q.buf.eraseIdx (best_index_to_pop q) } := by
        simp [pop_all_fuel, hpop]
      have hlt : best_index_to_pop q < q.buf.length := by
        have := hperm.length_eq
        simp only [List.length_cons] at this
        by_contra hge
        rw [List.eraseIdx_of_length_le (Nat.le_of_not_lt hge)] at this
        omega
      have hlen : (q.buf.eraseIdx (best_index_to_pop q)).length + 1 =
          q.buf.length := by
        rw [List.length_eraseIdx]
        simp [hlt]
        omega
      have hd' : (q.buf.eraseIdx (best_index_to_pop q)).Pairwise
          (fun a b => a.seq ≠ b.seq) :=
        List.Pairwise.sublist (List.eraseIdx_sublist q.buf
          (best_index_to_pop q)) hd
      have ih := pop_all_fuel_spec f
        { q with buf := q.buf.eraseIdx (best_index_to_pop q) }
        (by simp only []; omega) hd'
      rw [hstep]
      constructor
      · exact hperm.trans (ih.1.cons out)
      · refine List.pairwise_cons.mpr ⟨?_, ih.2⟩
        intro x hx
        exact hstr x (ih.1.symm.subset hx)

/-- Tag a list of messages with consecutive sequence numbers starting at
`s`, as `queue_push` does. -/
def tag_from (s : Nat) : List msg_t → List msg_t
  | [] => []
  | m :: rest => { m with seq := s } :: tag_from (s + 1) rest

lemma tag_from_seq_bounds :
    ∀ (ms : List msg_t) (s : Nat), ∀ x ∈ tag_from s ms,
      s ≤ x.seq ∧ x.seq < s + ms.length
  | [], _, x, hx => by simp [tag_from] at hx
  | m :: rest, s, x, hx => by
    simp only [tag_from, List.mem_cons] at hx
    rcases hx with rfl | hx
    · simp
    · have := tag_from_seq_bounds rest (s + 1) x hx
      simp only [List.length_cons]
      omega

lemma tag_from_sorted :
    ∀ (ms : List msg_t) (s : Nat),
      (tag_from s ms).Pairwise (fun a b => a.seq < b.seq)
  | [], _ => List.Pairwise.nil
  | m :: rest, s => by
    simp only [tag_from]
    refine List.pairwise_cons.mpr ⟨?_, tag_from_sorted rest (s + 1)⟩
    intro x hx
    have := tag_from_seq_bounds rest (s + 1) x hx
    simp only []
    omega

/-- Pushing a list of messages that fits in the remaining capacity
appends them, tagged with consecutive sequence numbers from
`next_seq`. -/
lemma push_all_spec :
    ∀ (ms : List msg_t) (q : queue_t),
      q.count + (ms.length : Int) ≤ q.capacity →
      (push_all q ms).buf = q.buf ++ tag_from q.next_seq ms ∧
      (push_all q ms).next_seq = q.next_seq + ms.length ∧
      (push_all q ms).capacity = q.capacity
  | [], q, _ => by simp [push_all, tag_from]
  | m :: rest, q, hcap => by
    have hnotfull : ¬ (q.count ≥ q.capacity) := by
      simp only [List.length_cons, Nat.cast_add, Nat.cast_one] at hcap
      have : (0 : Int) ≤ (rest.length : Int) := Int.natCast_nonneg _
      omega
    have hfull : queue_is_full (some q) = false := by
      simp [queue_is_full, hnotfull]
    have hpush : queue_push q m =
        (0, { buf := q.buf ++ [{ m with seq := q.next_seq }],
              capacity := q.capacity, next_seq := q.next_seq + 1 }) := by
      simp [queue_push, hfull]
    have hstep : push_all q (m :: rest) =
        push_all (queue_push q m).2 rest := by
      simp [push_all]
    have hcap' : (queue_push q m).2.count + (rest.length : Int) ≤
        (queue_push q m).2.capacity := by
      rw [hpush]
      simp only [queue_t.count, List.length_append, List.length_singleton]
      simp only [queue_t.count, List.length_cons, Nat.cast_add,
        Nat.cast_one] at hcap
      push_cast
      omega
    obtain ⟨ih1, ih2, ih3⟩ := push_all_spec rest _ hcap'
    have hbuf2 : (queue_push q m).2.buf =
        q.buf ++ [{ m with seq := q.next_seq }] := by rw [hpush]
    have hns2 : (queue_push q m).2.next_seq = q.next_seq + 1 := by rw [hpush]
    have hcap2 : (queue_push q m).2.capacity = q.capacity := by rw [hpush]
    rw [hstep]
    refine ⟨?_, ?_, ih3.trans hcap2⟩
    · rw [ih1, hbuf2, hns2]
      simp [tag_from, List.append_assoc]
    · rw [ih2, hns2]
      simp only [List.length_cons]
      omega

/-- Reachable-state well-formedness of the bare queue: occupancy within
capacity, all sequence numbers below `next_seq`, and held sequence
numbers strictly increasing along the backing order. -/
def q_wf (q : queue_t) : Prop :=
  q.count ≤ q.capacity ∧ (∀ m ∈ q.buf, m.seq < q.next_seq) ∧
  q.buf.Pairwise (fun a b => a.seq < b.seq)

lemma q_wf_push (q : queue_t) (m : msg_t) (hw : q_wf q) :
    q_wf (queue_push q m).2 ∧ (queue_push q m).2.capacity = q.capacity ∧
    ((queue_push q m).1 = 0 →
      (queue_push q m).2.buf.length = q.buf.length + 1) ∧
    ((queue_push q m).1 ≠ 0 → (queue_push q m).2 = q) := by
  obtain ⟨hcap, hseq, hsort⟩ := hw
  by_cases hfull : queue_is_full (some q) = true
  · have : queue_push q m = (-2, q) := by simp [queue_push, hfull]
    rw [this]
    refine ⟨⟨hcap, hseq, hsort⟩, rfl, ?_, fun _ => rfl⟩
    intro h0
    simp at h0
  · have hfull' : queue_is_full (some q) = false := by
      cases hq : queue_is_full (some q)
      · rfl
      · exact absurd hq hfull
    have hlt : q.count < q.capacity := by
      simp only [queue_is_full, decide_eq_false_iff_not] at hfull'
      omega
    have hpush : queue_push q m =
        (0, { buf := q.buf ++ [{ m with seq := q.next_seq }],
              capacity := q.capacity, next_seq := q.next_seq + 1 }) := by
      simp [queue_push, hfull']
    rw [hpush]
    refine ⟨⟨?_, ?_, ?_⟩, rfl, fun _ => by simp, ?_⟩
    · simp only [queue_t.count, List.length_append, List.length_singleton]
      simp only [queue_t.count] at hlt
      push_cast
      omega
    · intro x hx
      simp only [List.mem_append, List.mem_singleton] at hx
      rcases hx with hx | rfl
      · exact Nat.lt_succ_of_lt (hseq x hx)
      · exact Nat.lt_succ_self _
    · refine List.pairwise_append.mpr ⟨hsort, ?_, ?_⟩
      · simp
      · intro a ha b hb
        simp only [List.mem_singleton] at hb
        subst hb
        exact hseq a ha
    · intro hne
      simp at hne

lemma q_wf_pop (q : queue_t) (hw : q_wf q) :
    q_wf (queue_pop q).2.1 ∧ (queue_pop q).2.1.capacity = q.capacity ∧
    ((queue_pop q).1 = 0 →
      (queue_pop q).2.1.buf.length + 1 = q.buf.length) ∧
    ((queue_pop q).1 ≠ 0 → (queue_pop q).2.1 = q) := by
  obtain ⟨hcap, hseq, hsort⟩ := hw
  by_cases hb : q.buf = []
  · have hcnt : queue_t.count q = 0 := by simp [queue_t.count, hb]
    have : queue_pop q = (-2, q, none) := by
      simp [queue_pop, queue_is_empty, hcnt]
    rw [this]
    refine ⟨⟨hcap, hseq, hsort⟩, rfl, ?_, fun _ => rfl⟩
    intro h0
    simp at h0
  · obtain ⟨out, hpop, _, _, hperm⟩ := queue_pop_success q hb
    rw [hpop]
    have hsub := List.eraseIdx_sublist q.buf (best_index_to_pop q)
    have hlen : (q.buf.eraseIdx (best_index_to_pop q)).length + 1 =
        q.buf.length := by
      have := hperm.length_eq
      simp only [List.length_cons] at this
      omega
    refine ⟨⟨?_, ?_, ?_⟩, rfl, fun _ => hlen, ?_⟩
    · simp only [queue_t.count] at hcap ⊢
      have := hsub.length_le
      omega
    · intro x hx
      exact hseq x (hsub.subset hx)
    · exact List.Pairwise.sublist hsub hsort
    · intro hne
      simp at hne

/-- State-machine invariant: along any operation sequence the queue
stays well-formed, the capacity is unchanged, and occupancy changes by
exactly the number of successful pushes minus successful pops. -/
lemma run_ops_spec :
    ∀ (ops : List qop) (q : queue_t) (sp sg : Nat), q_wf q →
      q_wf (run_ops (q, sp, sg) ops).1 ∧
      (run_ops (q, sp, sg) ops).1.capacity = q.capacity ∧
      (run_ops (q, sp, sg) ops).1.buf.length + sp +
          (run_ops (q, sp, sg) ops).2.2 =
        q.buf.length + (run_ops (q, sp, sg) ops).2.1 + sg
  | [], q, sp, sg, hw => by
    exact ⟨hw, rfl, rfl⟩
  | qop.push m :: rest, q, sp, sg, hw => by
    obtain ⟨hw', hcap', hsucc, hfail⟩ := q_wf_push q m hw
    have hstep : run_ops (q, sp, sg) (qop.push m :: rest) =
        run_ops ((queue_push q m).2,
          if (queue_push q m).1 = 0 then sp + 1 else sp, sg) rest := rfl
    rw [hstep]
    by_cases h0 : (queue_push q m).1 = 0
    · rw [if_pos h0]
      have ih := run_ops_spec rest (queue_push q m).2 (sp + 1) sg hw'
      refine ⟨ih.1, ih.2.1.trans hcap', ?_⟩
      have heq := ih.2.2
      have hl := hsucc h0
      omega
    · rw [if_neg h0]
      have ih := run_ops_spec rest (queue_push q m).2 sp sg hw'
      refine ⟨ih.1, ih.2.1.trans hcap', ?_⟩
      have heq := ih.2.2
      have hl := hfail h0
      rw [hl] at heq
      rw [hl]
      omega
  | qop.pop :: rest, q, sp, sg, hw => by
    obtain ⟨hw', hcap', hsucc, hfail⟩ := q_wf_pop q hw
    have hstep : run_ops (q, sp, sg) (qop.pop :: rest) =
        run_ops ((queue_pop q).2.1, sp,
          if (queue_pop q).1 = 0 then sg + 1 else sg) rest := rfl
    rw [hstep]
    by_cases h0 : (queue_pop q).1 = 0
    · rw [if_pos h0]
      have ih := run_ops_spec rest (queue_pop q).2.1 sp (sg + 1) hw'
      refine ⟨ih.1, ih.2.1.trans hcap', ?_⟩
      have heq := ih.2.2
      have hl := hsucc h0
      omega
    · rw [if_neg h0]
      have ih := run_ops_spec rest (queue_pop q).2.1 sp sg hw'
      refine ⟨ih.1, ih.2.1.trans hcap', ?_⟩
      have heq := ih.2.2
      have hl := hfail h0
      rw [hl] at heq
      rw [hl]
      omega

/-- C10: `queue_is_empty` applied to a NULL queue pointer returns true
while `queue_is_full` applied to NULL returns false; both predicates are
total (a boolean for every input, never failing), and on non-NULL queues
`queue_is_full` holds exactly when `count ≥ capacity` and
`queue_is_empty` exactly when `count = 0`. -/
theorem C10_null_predicates :
    queue_is_empty none = true ∧ queue_is_full none = false ∧
    (∀ o : Option queue_t,
      queue_is_full o = true ∨ queue_is_full o = false) ∧
    (∀ o : Option queue_t,
      queue_is_empty o = true ∨ queue_is_empty o = false) ∧
    (∀ q : queue_t, queue_is_full (some q) = true ↔ q.count ≥ q.capacity) ∧
    (∀ q : queue_t, queue_is_empty (some q) = true ↔ q.count = 0) := by
  refine ⟨rfl, rfl, ?_, ?_, ?_, ?_⟩
  · intro o
    cases queue_is_full o <;> simp
  · intro o
    cases queue_is_empty o <;> simp
  · intro q
    simp [queue_is_full]
  · intro q
    simp [queue_is_empty]

/-- C8: `queue_init` returns InvalidCapacity (-1) on a NULL pointer or a
capacity ≤ 0, AllocationFailure (-2) when backing storage cannot be
obtained, and otherwise succeeds with the given capacity, count 0 and
next-sequence 1; `buffer_init` surfaces each construction failure
immediately as a distinct negative code. -/
theorem C8_construction_errors :
    (∀ (qNull : Bool) (cap : Int) (allocOk : Bool),
      (qNull = true ∨ cap ≤ 0 → queue_init qNull cap allocOk = (-1, none)) ∧
      (qNull = false → 0 < cap → allocOk = false →
        queue_init qNull cap allocOk = (-2, none)) ∧
      (qNull = false → 0 < cap → allocOk = true →
        ∃ q, queue_init qNull cap allocOk = (0, some q) ∧
          q.capacity = cap ∧ q.count = 0 ∧ q.next_seq = 1)) ∧
    (∀ (cap : Int) (allocOk syncOk : Bool),
      buffer_init true cap allocOk syncOk = -1 ∧
      (cap ≤ 0 ∨ allocOk = false → buffer_init false cap allocOk syncOk = -2) ∧
      (0 < cap → allocOk = true → syncOk = false →
        buffer_init false cap allocOk syncOk = -3) ∧
      (buffer_init false cap allocOk syncOk < 0 ↔
        (cap ≤ 0 ∨ allocOk = false ∨ syncOk = false))) := by
  constructor
  · intro qNull cap allocOk
    refine ⟨?_, ?_, ?_⟩
    · rintro (h | h)
      · subst h
        simp [queue_init]
      · simp [queue_init, h]
    · rintro rfl hpos rfl
      simp [queue_init]
      omega
    · rintro rfl hpos rfl
      refine ⟨{ buf := [], capacity := cap, next_seq := 1 }, ?_, rfl, ?_, rfl⟩
      · simp [queue_init]
        omega
      · simp [queue_t.count]
  · intro cap allocOk syncOk
    by_cases hc : cap ≤ 0 <;> cases allocOk <;> cases syncOk <;>
      simp [buffer_init, queue_init, hc]

/-- C8 witness: concrete construction outcomes obtained from
`C8_construction_errors`. -/
theorem C8_construction_errors_witness :
    queue_init true 5 true = (-1, none) ∧
    queue_init false 0 true = (-1, none) ∧
    queue_init false 5 false = (-2, none) ∧
    (∃ q, queue_init false 5 true = (0, some q) ∧
      q.capacity = 5 ∧ q.count = 0 ∧ q.next_seq = 1) ∧
    buffer_init false 5 false true = -2 ∧
    buffer_init false 5 true false = -3 := by
  obtain ⟨h1, h2⟩ := C8_construction_errors
  exact ⟨(h1 true 5 true).1 (Or.inl rfl),
    (h1 false 0 true).1 (Or.inr (by norm_num)),
    (h1 false 5 false).2.1 rfl (by norm_num) rfl,
    (h1 false 5 true).2.2 rfl (by norm_num) rfl,
    (h2 5 false true).2.1 (Or.inr rfl),
    (h2 5 true false).2.2.1 (by norm_num) rfl rfl⟩

/-- C9: the timed waits have exactly the three outcomes acquired (0),
timed out (1) and hard error (negative), and `add_ms_to_timespec`
produces the absolute deadline now + timeout_ms exactly, normalized
whenever the input is normalized and the timeout is non-negative. -/
theorem C9_timedwait_outcomes :
    (∀ (sNull clockOk : Bool) (o : sem_outcome),
      (sync_timedwait_items sNull clockOk o = 0 ∨
       sync_timedwait_items sNull clockOk o = 1 ∨
       sync_timedwait_items sNull clockOk o < 0) ∧
      sync_timedwait_slots sNull clockOk o =
        sync_timedwait_items sNull clockOk o ∧
      (sync_timedwait_items sNull clockOk o = 0 ↔
        sNull = false ∧ clockOk = true ∧ o = sem_outcome.acquired) ∧
      (sync_timedwait_items sNull clockOk o = 1 ↔
        sNull = false ∧ clockOk = true ∧ o = sem_outcome.timedout)) ∧
    (∀ (ts : timespec) (ms : Int),
      0 ≤ ts.tv_nsec → ts.tv_nsec < 1000000000 → 0 ≤ ms →
      0 ≤ (add_ms_to_timespec ts ms).tv_nsec ∧
      (add_ms_to_timespec ts ms).tv_nsec < 1000000000 ∧
      (add_ms_to_timespec ts ms).tv_sec * 1000000000 +
          (add_ms_to_timespec ts ms).tv_nsec =
        ts.tv_sec * 1000000000 + ts.tv_nsec + ms * 1000000) := by
  constructor
  · intro sNull clockOk o
    cases sNull <;> cases clockOk <;> cases o <;> decide
  · intro ts ms h1 h2 h3
    have hd := Int.tdiv_add_tmod ms 1000
    have hr0 : 0 ≤ ms.tmod 1000 := Int.tmod_nonneg 1000 h3
    have hr1 : ms.tmod 1000 < 1000 := Int.tmod_lt_of_pos ms (by norm_num)
    simp only [add_ms_to_timespec]
    set d := ms.tdiv 1000 with hdd
    set r := ms.tmod 1000 with hrr
    split_ifs with hn <;> simp only [] <;> refine ⟨?_, ?_, ?_⟩ <;> omega

/-- C9 witness: a normalized timespec near a second boundary with a
timeout that carries into the seconds field. -/
theorem C9_timedwait_outcomes_witness :
    0 ≤ (add_ms_to_timespec ⟨100, 999999999⟩ 1250).tv_nsec ∧
    (add_ms_to_timespec ⟨100, 999999999⟩ 1250).tv_nsec < 1000000000 ∧
    (add_ms_to_timespec ⟨100, 999999999⟩ 1250).tv_sec * 1000000000 +
        (add_ms_to_timespec ⟨100, 999999999⟩ 1250).tv_nsec =
      (100 : Int) * 1000000000 + 999999999 + 1250 * 1000000 :=
  C9_timedwait_outcomes.2 ⟨100, 999999999⟩ 1250 (by norm_num) (by norm_num)
    (by norm_num)

/-- C4: for a reachable queue state (`count ≤ capacity`), `queue_push`
fails with Full (-2) iff the held-message count equals capacity, leaving
the whole state (including `next_seq`) unchanged; otherwise it appends a
copy of the message at the end with `seq = next_seq`, increments
`next_seq` and the count by one, and returns 0. -/
theorem C4_push_full_iff (q : queue_t) (m : msg_t)
    (hre : q.count ≤ q.capacity) :
    ((queue_push q m).1 = -2 ↔ q.count = q.capacity) ∧
    (q.count = q.capacity → queue_push q m = (-2, q)) ∧
    (q.count ≠ q.capacity →
      (queue_push q m).1 = 0 ∧
      (queue_push q m).2.buf = q.buf ++ [{ m with seq := q.next_seq }] ∧
      (queue_push q m).2.next_seq = q.next_seq + 1 ∧
      (queue_push q m).2.capacity = q.capacity ∧
      (queue_push q m).2.count = q.count + 1) := by
  by_cases hfull : q.count ≥ q.capacity
  · have heq : q.count = q.capacity := le_antisymm hre hfull
    have hf : queue_is_full (some q) = true := by
      simp [queue_is_full, hfull]
    have hp : queue_push q m = (-2, q) := by simp [queue_push, hf]
    rw [hp]
    exact ⟨by simp [heq], fun _ => rfl, fun hne => absurd heq hne⟩
  · have hne : q.count ≠ q.capacity := fun h => hfull h.ge
    have hf : queue_is_full (some q) = false := by
      simp [queue_is_full, hfull]
    have hp : queue_push q m =
        (0, { buf := q.buf ++ [{ m with seq := q.next_seq }],
              capacity := q.capacity, next_seq := q.next_seq + 1 }) := by
      simp [queue_push, hf]
    rw [hp]
    refine ⟨⟨fun h => absurd h (by norm_num), fun h => absurd h hne⟩,
      fun h => absurd h hne, fun _ => ⟨rfl, rfl, rfl, rfl, ?_⟩⟩
    simp only [queue_t.count, List.length_append, List.length_singleton]
    push_cast
    ring

/-- C4 witness: pushing into an empty capacity-1 queue succeeds and tags
the message with sequence number 1. -/
theorem C4_push_full_iff_witness :
    ((queue_push { buf := [], capacity := 1, next_seq := 1 }
        { value := 7, priority := 5, producer_id := 0, seq := 0 }).1 = -2 ↔
      queue_t.count { buf := [], capacity := 1, next_seq := 1 } =
        (1 : Int)) ∧
    (queue_t.count { buf := [], capacity := 1, next_seq := 1 } = (1 : Int) →
      queue_push { buf := [], capacity := 1, next_seq := 1 }
          { value := 7, priority := 5, producer_id := 0, seq := 0 } =
        (-2, { buf := [], capacity := 1, next_seq := 1 })) ∧
    (queue_t.count { buf := [], capacity := 1, next_seq := 1 } ≠ (1 : Int) →
      (queue_push { buf := [], capacity := 1, next_seq := 1 }
          { value := 7, priority := 5, producer_id := 0, seq := 0 }).1 = 0 ∧
      (queue_push { buf := [], capacity := 1, next_seq := 1 }
          { value := 7, priority := 5, producer_id := 0, seq := 0 }).2.buf =
        [] ++ [{ value := 7, priority := 5, producer_id := 0, seq := 1 }] ∧
      (queue_push { buf := [], capacity := 1, next_seq := 1 }
          { value := 7, priority := 5, producer_id := 0,
            seq := 0 }).2.next_seq = 2 ∧
      (queue_push { buf := [], capacity := 1, next_seq := 1 }
          { value := 7, priority := 5, producer_id := 0,
            seq := 0 }).2.capacity = 1 ∧
      (queue_push { buf := [], capacity := 1, next_seq := 1 }
          { value := 7, priority := 5, producer_id := 0, seq := 0 }).2.count =
        queue_t.count { buf := [], capacity := 1, next_seq := 1 } + 1) :=
  C4_push_full_iff { buf := [], capacity := 1, next_seq := 1 }
    { value := 7, priority := 5, producer_id := 0, seq := 0 } (by decide)

/-- C5: `queue_pop` fails with Empty (-2) iff no messages are held,
leaving the queue unchanged; on success it removes exactly one message,
the element at `best_index_to_pop`, and the remaining messages keep
their relative order (take/drop shift by one, a sublist of the old
contents). -/
theorem C5_pop_empty_iff (q : queue_t) :
    ((queue_pop q).1 = -2 ↔ q.buf = []) ∧
    (q.buf = [] → queue_pop q = (-2, q, none)) ∧
    (q.buf ≠ [] →
      (queue_pop q).1 = 0 ∧
      best_index_to_pop q < q.buf.length ∧
      (queue_pop q).2.1.buf =
        q.buf.take (best_index_to_pop q) ++
          q.buf.drop (best_index_to_pop q + 1) ∧
      (queue_pop q).2.1.buf.length + 1 = q.buf.length ∧
      (queue_pop q).2.1.buf.Sublist q.buf ∧
      (queue_pop q).2.2 = q.buf[best_index_to_pop q]? ∧
      (queue_pop q).2.1.capacity = q.capacity ∧
      (queue_pop q).2.1.next_seq = q.next_seq) := by
  by_cases hb : q.buf = []
  · have hcnt : queue_t.count q = 0 := by simp [queue_t.count, hb]
    have hp : queue_pop q = (-2, q, none) := by
      simp [queue_pop, queue_is_empty, hcnt]
    rw [hp]
    exact ⟨by simp [hb], fun _ => rfl, fun hne => absurd hb hne⟩
  · obtain ⟨out, hpop, hget, _, hperm⟩ := queue_pop_success q hb
    have hlt : best_index_to_pop q < q.buf.length :=
      (List.getElem?_eq_some_iff.mp hget).1
    rw [hpop]
    refine ⟨⟨fun h => absurd h (by norm_num), fun h => absurd h hb⟩,
      fun h => absurd h hb, fun _ => ⟨rfl, hlt, ?_, ?_, ?_, ?_, rfl, rfl⟩⟩
    · exact List.eraseIdx_eq_take_drop_succ _ _
    · show (q.buf.eraseIdx (best_index_to_pop q)).length + 1 = q.buf.length
      have := hperm.length_eq
      simp only [List.length_cons] at this
      omega
    · exact List.eraseIdx_sublist _ _
    · show some out = q.buf[best_index_to_pop q]?
      exact hget.symm

/-- Sample low-priority message, inserted first. -/
def mLow : msg_t := { value := 10, priority := 3, producer_id := 1, seq := 1 }

/-- Sample high-priority message, inserted second. -/
def mHigh : msg_t := { value := 12, priority := 7, producer_id := 2, seq := 2 }

/-- Sample two-element queue holding `mLow` then `mHigh`. -/
def qTwo : queue_t := { buf := [mLow, mHigh], capacity := 3, next_seq := 3 }

/-- C5 witness: popping from the two-element queue `qTwo` removes the
priority-7 message at index 1 and keeps the other in place. -/
theorem C5_pop_empty_iff_witness :
    ((queue_pop qTwo).1 = -2 ↔ qTwo.buf = []) ∧
    (qTwo.buf = [] → queue_pop qTwo = (-2, qTwo, none)) ∧
    (qTwo.buf ≠ [] →
      (queue_pop qTwo).1 = 0 ∧
      best_index_to_pop qTwo < qTwo.buf.length ∧
      (queue_pop qTwo).2.1.buf =
        qTwo.buf.take (best_index_to_pop qTwo) ++
          qTwo.buf.drop (best_index_to_pop qTwo + 1) ∧
      (queue_pop qTwo).2.1.buf.length + 1 = qTwo.buf.length ∧
      (queue_pop qTwo).2.1.buf.Sublist qTwo.buf ∧
      (queue_pop qTwo).2.2 = qTwo.buf[best_index_to_pop qTwo]? ∧
      (queue_pop qTwo).2.1.capacity = qTwo.capacity ∧
      (queue_pop qTwo).2.1.next_seq = qTwo.next_seq) :=
  C5_pop_empty_iff qTwo

lemma queue_push_rc_zero (q : queue_t) (m : msg_t)
    (h : (queue_push q m).1 = 0) :
    (queue_push q m).2.count = q.count + 1 ∧
    (queue_push q m).2.capacity = q.capacity := by
  by_cases hf : queue_is_full (some q) = true
  · rw [queue_push] at h
    rw [hf] at h
    simp at h
  · have hf' : queue_is_full (some q) = false := by
      cases hq : queue_is_full (some q)
      · rfl
      · exact absurd hq hf
    have hp : queue_push q m =
        (0, { buf := q.buf ++ [{ m with seq := q.next_seq }],
              capacity := q.capacity, next_seq := q.next_seq + 1 }) := by
      simp [queue_push, hf']
    rw [hp]
    refine ⟨?_, rfl⟩
    simp only [queue_t.count, List.length_append, List.length_singleton]
    push_cast
    ring

lemma queue_push_not_full (q : queue_t) (m : msg_t)
    (h : q.count < q.capacity) : (queue_push q m).1 = 0 := by
  have hf : queue_is_full (some q) = false := by
    simp only [queue_is_full, decide_eq_false_iff_not]
    omega
  simp [queue_push, hf]

lemma queue_pop_rc_zero (q : queue_t) (h : (queue_pop q).1 = 0) :
    (queue_pop q).2.1.count + 1 = q.count ∧
    (queue_pop q).2.1.capacity = q.capacity := by
  by_cases hb : q.buf = []
  · have hcnt : queue_t.count q = 0 := by simp [queue_t.count, hb]
    have hp : queue_pop q = (-2, q, none) := by
      simp [queue_pop, queue_is_empty, hcnt]
    rw [hp] at h
    simp at h
  · obtain ⟨out, hpop, _, _, hperm⟩ := queue_pop_success q hb
    rw [hpop]
    refine ⟨?_, rfl⟩
    have := hperm.length_eq
    simp only [List.length_cons] at this
    show ((q.buf.eraseIdx (best_index_to_pop q)).length : Int) + 1 =
      (q.buf.length : Int)
    omega

lemma queue_pop_not_empty (q : queue_t) (h : 0 < q.count) :
    (queue_pop q).1 = 0 := by
  have hb : q.buf ≠ [] := by
    intro hnil
    simp [queue_t.count, hnil] at h
  obtain ⟨out, hpop, _, _, _⟩ := queue_pop_success q hb
  rw [hpop]

lemma buffer_put_inv (lockOk : Bool) (b : buffer_t) (m : msg_t) (r : Int)
    (b' : buffer_t) (tr : List sev) (hinv : buf_inv b)
    (heq : buffer_put lockOk b m = some (r, b', tr)) :
    buf_inv b' ∧
    (r = 0 →
      tr = [sev.waitSlots, sev.lock, sev.mutate, sev.unlock,
        sev.postItems] ∧
      b'.slots + 1 = b.slots ∧ b'.items = b.items + 1 ∧
      b'.q.count = b.q.count + 1) := by
  obtain ⟨hsum, hitems⟩ := hinv
  by_cases hs : b.slots = 0
  · rw [buffer_put, if_pos hs] at heq
    exact absurd heq (by simp)
  · have hrs : b.slots - 1 + 1 = b.slots := by omega
    cases lockOk with
    | false =>
      have hev : buffer_put false b m =
          some (-3, { b with slots := b.slots - 1 + 1 },
            [sev.waitSlots, sev.postSlots]) := by
        simp [buffer_put, hs]
      rw [hev] at heq
      simp only [Option.some.injEq, Prod.mk.injEq] at heq
      obtain ⟨hr, hb', htr⟩ := heq
      have hbb : b' = b := by
        rw [← hb', hrs]
      subst hbb
      refine ⟨⟨hsum, hitems⟩, ?_⟩
      intro h0
      rw [← hr] at h0
      norm_num at h0
    | true =>
      by_cases hrc : (queue_push b.q m).1 ≠ 0
      · have hev : buffer_put true b m =
            some (-4, { b with slots := b.slots - 1 + 1 },
              [sev.waitSlots, sev.lock, sev.unlock, sev.postSlots]) := by
          simp only [buffer_put, hs, if_neg hs, if_false]
          simp [hrc]
        rw [hev] at heq
        simp only [Option.some.injEq, Prod.mk.injEq] at heq
        obtain ⟨hr, hb', htr⟩ := heq
        have hbb : b' = b := by
          rw [← hb', hrs]
        subst hbb
        refine ⟨⟨hsum, hitems⟩, ?_⟩
        intro h0
        rw [← hr] at h0
        norm_num at h0
      · push_neg at hrc
        have hev : buffer_put true b m =
            some (0, { q := (queue_push b.q m).2,
                       slots := b.slots - 1,
                       items := b.items + 1 },
              [sev.waitSlots, sev.lock, sev.mutate, sev.unlock,
                sev.postItems]) := by
          simp [buffer_put, hs, hrc]
        rw [hev] at heq
        simp only [Option.some.injEq, Prod.mk.injEq] at heq
        obtain ⟨hr, hb', htr⟩ := heq
        obtain ⟨hcnt, hcap⟩ := queue_push_rc_zero b.q m hrc
        subst hb'
        constructor
        · constructor
          · show ((b.slots - 1 : Nat) : Int) + ((b.items + 1 : Nat) : Int) =
              (queue_push b.q m).2.capacity
            rw [hcap]
            push_cast
            omega
          · show ((b.items + 1 : Nat) : Int) = (queue_push b.q m).2.count
            rw [hcnt, ← hitems]
            push_cast
            ring
        · intro _
          refine ⟨htr.symm, ?_, rfl, ?_⟩
          · show b.slots - 1 + 1 = b.slots
            omega
          · show (queue_push b.q m).2.count = b.q.count + 1
            exact hcnt

lemma buffer_get_inv (lockOk : Bool) (b : buffer_t) (r : Int)
    (b' : buffer_t) (o : Option msg_t) (tr : List sev) (hinv : buf_inv b)
    (heq : buffer_get lockOk b = some (r, b', o, tr)) :
    buf_inv b' ∧
    (r = 0 →
      tr = [sev.waitItems, sev.lock, sev.mutate, sev.unlock,
        sev.postSlots] ∧
      b'.items + 1 = b.items ∧ b'.slots = b.slots + 1 ∧
      b'.q.count + 1 = b.q.count) := by
  obtain ⟨hsum, hitems⟩ := hinv
  by_cases hs : b.items = 0
  · rw [buffer_get, if_pos hs] at heq
    exact absurd heq (by simp)
  · have hrs : b.items - 1 + 1 = b.items := by omega
    cases lockOk with
    | false =>
      have hev : buffer_get false b =
          some (-3, { b with items := b.items - 1 + 1 }, none,
            [sev.waitItems, sev.postItems]) := by
        simp [buffer_get, hs]
      rw [hev] at heq
      simp only [Option.some.injEq, Prod.mk.injEq] at heq
      obtain ⟨hr, hb', _, htr⟩ := heq
      have hbb : b' = b := by
        rw [← hb', hrs]
      subst hbb
      refine ⟨⟨hsum, hitems⟩, ?_⟩
      intro h0
      rw [← hr] at h0
      norm_num at h0
    | true =>
      by_cases hrc : (queue_pop b.q).1 ≠ 0
      · have hev : buffer_get true b =
            some (-4, { b with items := b.items - 1 + 1 }, none,
              [sev.waitItems, sev.lock, sev.unlock, sev.postItems]) := by
          simp only [buffer_get, hs, if_neg hs, if_false]
          simp [hrc]
        rw [hev] at heq
        simp only [Option.some.injEq, Prod.mk.injEq] at heq
        obtain ⟨hr, hb', _, htr⟩ := heq
        have hbb : b' = b := by
          rw [← hb', hrs]
        subst hbb
        refine ⟨⟨hsum, hitems⟩, ?_⟩
        intro h0
        rw [← hr] at h0
        norm_num at h0
      · push_neg at hrc
        have hev : buffer_get true b =
            some (0, { q := (queue_pop b.q).2.1,
                       slots := b.slots + 1,
                       items := b.items - 1 },
              (queue_pop b.q).2.2,
              [sev.waitItems, sev.lock, sev.mutate, sev.unlock,
                sev.postSlots]) := by
          simp [buffer_get, hs, hrc]
        rw [hev] at heq
        simp only [Option.some.injEq, Prod.mk.injEq] at heq
        obtain ⟨hr, hb', _, htr⟩ := heq
        obtain ⟨hcnt, hcap⟩ := queue_pop_rc_zero b.q hrc
        subst hb'
        constructor
        · constructor
          · show ((b.slots + 1 : Nat) : Int) + ((b.items - 1 : Nat) : Int) =
              (queue_pop b.q).2.1.capacity
            rw [hcap]
            push_cast
            omega
          · show ((b.items - 1 : Nat) : Int) = (queue_pop b.q).2.1.count
            have : (((b.items - 1 : Nat)) : Int) = (b.items : Int) - 1 := by
              omega
            rw [this]
            omega
        · intro _
          refine ⟨htr.symm, ?_, rfl, ?_⟩
          · show b.items - 1 + 1 = b.items
            omega
          · show (queue_pop b.q).2.1.count + 1 = b.q.count
            exact hcnt

lemma buffer_put_intr_inv :
    ∀ (sched : List intr_oracle) (b : buffer_t) (m : msg_t) (r : Int)
      (b' : buffer_t), buf_inv b →
      buffer_put_intr b m sched = some (r, b') → buf_inv b'
  | [], b, m, r, b', _, heq => by
    simp [buffer_put_intr] at heq
  | o :: rest, b, m, r, b', hinv, heq => by
    simp only [buffer_put_intr] at heq
    split at heq
    · simp only [Option.some.injEq, Prod.mk.injEq] at heq
      rw [← heq.2]
      exact hinv
    · split at heq
      · exact buffer_put_intr_inv rest b m r b' hinv heq
      · split at heq
        · simp only [Option.some.injEq, Prod.mk.injEq] at heq
          rw [← heq.2]
          exact hinv
        · split at heq
          · exact absurd heq (by simp)
          · rename_i hs0
            have hrs : b.slots - 1 + 1 = b.slots := by omega
            split at heq
            · simp only [Option.some.injEq, Prod.mk.injEq] at heq
              rw [← heq.2, hrs]
              exact hinv
            · split at heq
              · simp only [Option.some.injEq, Prod.mk.injEq] at heq
                rw [← heq.2, hrs]
                exact hinv
              · split at heq
                · simp only [Option.some.injEq, Prod.mk.injEq] at heq
                  rw [← heq.2, hrs]
                  exact hinv
                · split at heq
                  · simp only [Option.some.injEq, Prod.mk.injEq] at heq
                    rw [← heq.2, hrs]
                    exact hinv
                  · rename_i hpush
                    push_neg at hpush
                    simp only [Option.some.injEq, Prod.mk.injEq] at heq
                    obtain ⟨hcnt, hcap⟩ := queue_push_rc_zero b.q m hpush
                    obtain ⟨hsum, hitems⟩ := hinv
                    rw [← heq.2]
                    constructor
                    · show ((b.slots - 1 : Nat) : Int) +
                        ((b.items + 1 : Nat) : Int) =
                        (queue_push b.q m).2.capacity
                      rw [hcap]
                      push_cast
                      omega
                    · show ((b.items + 1 : Nat) : Int) =
                        (queue_push b.q m).2.count
                      rw [hcnt, ← hitems]
                      push_cast
                      ring

lemma buffer_get_intr_inv :
    ∀ (sched : List intr_oracle) (b : buffer_t) (r : Int) (b' : buffer_t)
      (o : Option msg_t), buf_inv b →
      buffer_get_intr b sched = some (r, b', o) → buf_inv b'
  | [], b, r, b', o, _, heq => by
    simp [buffer_get_intr] at heq
  | orc :: rest, b, r, b', o, hinv, heq => by
    simp only [buffer_get_intr] at heq
    split at heq
    · simp only [Option.some.injEq, Prod.mk.injEq] at heq
      rw [← heq.2.1]
      exact hinv
    · split at heq
      · exact buffer_get_intr_inv rest b r b' o hinv heq
      · split at heq
        · simp only [Option.some.injEq, Prod.mk.injEq] at heq
          rw [← heq.2.1]
          exact hinv
        · split at heq
          · exact absurd heq (by simp)
          · rename_i hs0
            have hrs : b.items - 1 + 1 = b.items := by omega
            split at heq
            · simp only [Option.some.injEq, Prod.mk.injEq] at heq
              rw [← heq.2.1, hrs]
              exact hinv
            · split at heq
              · simp only [Option.some.injEq, Prod.mk.injEq] at heq
                rw [← heq.2.1, hrs]
                exact hinv
              · split at heq
                · simp only [Option.some.injEq, Prod.mk.injEq] at heq
                  rw [← heq.2.1, hrs]
                  exact hinv
                · split at heq
                  · simp only [Option.some.injEq, Prod.mk.injEq] at heq
                    rw [← heq.2.1, hrs]
                    exact hinv
                  · rename_i hpop
                    push_neg at hpop
                    simp only [Option.some.injEq, Prod.mk.injEq] at heq
                    obtain ⟨hcnt, hcap⟩ := queue_pop_rc_zero b.q hpop
                    obtain ⟨hsum, hitems⟩ := hinv
                    rw [← heq.2.1]
                    constructor
                    · show ((b.slots + 1 : Nat) : Int) +
                        ((b.items - 1 : Nat) : Int) =
                        (queue_pop b.q).2.1.capacity
                      rw [hcap]
                      push_cast
                      omega
                    · show ((b.items - 1 : Nat) : Int) =
                        (queue_pop b.q).2.1.count
                      have hc : (((b.items - 1 : Nat)) : Int) =
                          (b.items : Int) - 1 := by
                        omega
                      rw [hc]
                      omega

/-- C2: the coupling invariant (`slots + items = capacity`,
`items = held count`) is re-established at the return boundary of every
completed operation, blocking or interruptible, and a successful
blocking call's event trace acquires its token before the container
mutation and releases the paired token only after it (slots decremented
before the push commits, items incremented after; mirror for get). -/
theorem C2_semaphore_coupling :
    (∀ (lockOk : Bool) (b : buffer_t) (m : msg_t) (r : Int) (b' : buffer_t)
        (tr : List sev),
      buf_inv b → buffer_put lockOk b m = some (r, b', tr) →
      buf_inv b' ∧
      (r = 0 →
        tr = [sev.waitSlots, sev.lock, sev.mutate, sev.unlock,
          sev.postItems] ∧
        b'.slots + 1 = b.slots ∧ b'.items = b.items + 1 ∧
        b'.q.count = b.q.count + 1)) ∧
    (∀ (lockOk : Bool) (b : buffer_t) (r : Int) (b' : buffer_t)
        (o : Option msg_t) (tr : List sev),
      buf_inv b → buffer_get lockOk b = some (r, b', o, tr) →
      buf_inv b' ∧
      (r = 0 →
        tr = [sev.waitItems, sev.lock, sev.mutate, sev.unlock,
          sev.postSlots] ∧
        b'.items + 1 = b.items ∧ b'.slots = b.slots + 1 ∧
        b'.q.count + 1 = b.q.count)) ∧
    (∀ (b : buffer_t) (m : msg_t) (sched : List intr_oracle) (r : Int)
        (b' : buffer_t),
      buf_inv b → buffer_put_intr b m sched = some (r, b') → buf_inv b') ∧
    (∀ (b : buffer_t) (sched : List intr_oracle) (r : Int) (b' : buffer_t)
        (o : Option msg_t),
      buf_inv b → buffer_get_intr b sched = some (r, b', o) →
      buf_inv b') :=
  ⟨fun lockOk b m r b' tr hinv heq =>
      buffer_put_inv lockOk b m r b' tr hinv heq,
    fun lockOk b r b' o tr hinv heq =>
      buffer_get_inv lockOk b r b' o tr hinv heq,
    fun b m sched r b' hinv heq =>
      buffer_put_intr_inv sched b m r b' hinv heq,
    fun b sched r b' o hinv heq =>
      buffer_get_intr_inv sched b r b' o hinv heq⟩

/-- C7: under the coupling invariant, the defensive
InternalInconsistency (-4) branches of `buffer_put` and `buffer_get`
are unreachable: an acquired slot token implies the container is not
full, an acquired item token implies it is not empty. -/
theorem C7_inconsistency_unreachable :
    ∀ (lockOk : Bool) (b : buffer_t) (m : msg_t), buf_inv b →
      (∀ (r : Int) (b' : buffer_t) (tr : List sev),
        buffer_put lockOk b m = some (r, b', tr) → r ≠ -4) ∧
      (∀ (r : Int) (b' : buffer_t) (o : Option msg_t) (tr : List sev),
        buffer_get lockOk b = some (r, b', o, tr) → r ≠ -4) := by
  intro lockOk b m hinv
  obtain ⟨hsum, hitems⟩ := hinv
  constructor
  · intro r b' tr heq
    by_cases hs : b.slots = 0
    · rw [buffer_put, if_pos hs] at heq
      exact absurd heq (by simp)
    · have hslot : (1 : Int) ≤ (b.slots : Int) := by
        omega
      have hcnt : b.q.count < b.q.capacity := by
        omega
      have hrc : (queue_push b.q m).1 = 0 := queue_push_not_full b.q m hcnt
      cases lockOk with
      | false =>
        have hev : buffer_put false b m =
            some (-3, { b with slots := b.slots - 1 + 1 },
              [sev.waitSlots, sev.postSlots]) := by
          simp [buffer_put, hs]
        rw [hev] at heq
        simp only [Option.some.injEq, Prod.mk.injEq] at heq
        rw [← heq.1]
        norm_num
      | true =>
        have hev : buffer_put true b m =
            some (0, { q := (queue_push b.q m).2,
                       slots := b.slots - 1,
                       items := b.items + 1 },
              [sev.waitSlots, sev.lock, sev.mutate, sev.unlock,
                sev.postItems]) := by
          simp [buffer_put, hs, hrc]
        rw [hev] at heq
        simp only [Option.some.injEq, Prod.mk.injEq] at heq
        rw [← heq.1]
        norm_num
  · intro r b' o tr heq
    by_cases hs : b.items = 0
    · rw [buffer_get, if_pos hs] at heq
      exact absurd heq (by simp)
    · have hcnt : 0 < b.q.count := by
        omega
      have hrc : (queue_pop b.q).1 = 0 := queue_pop_not_empty b.q hcnt
      cases lockOk with
      | false =>
        have hev : buffer_get false b =
            some (-3, { b with items := b.items - 1 + 1 }, none,
              [sev.waitItems, sev.postItems]) := by
          simp [buffer_get, hs]
        rw [hev] at heq
        simp only [Option.some.injEq, Prod.mk.injEq] at heq
        rw [← heq.1]
        norm_num
      | true =>
        have hev : buffer_get true b =
            some (0, { q := (queue_pop b.q).2.1,
                       slots := b.slots + 1,
                       items := b.items - 1 },
              (queue_pop b.q).2.2,
              [sev.waitItems, sev.lock, sev.mutate, sev.unlock,
                sev.postSlots]) := by
          simp [buffer_get, hs, hrc]
        rw [hev] at heq
        simp only [Option.some.injEq, Prod.mk.injEq] at heq
        rw [← heq.1]
        norm_num

/-- Sample buffer: empty capacity-1 queue, one free slot, no items. -/
def bufA : buffer_t :=
  { q := { buf := [], capacity := 1, next_seq := 1 }, slots := 1,
    items := 0 }

/-- Sample message handed to the buffer operations. -/
def msgA : msg_t := { value := 9, priority := 4, producer_id := 2, seq := 0 }

/-- The message `msgA` as stored by the queue (sequence number 1). -/
def msgA1 : msg_t :=
  { value := 9, priority := 4, producer_id := 2, seq := 1 }

/-- Sample buffer: full capacity-1 queue, no free slot, one item; also
the state of `bufA` after a successful put of `msgA`. -/
def bufA' : buffer_t :=
  { q := { buf := [msgA1], capacity := 1, next_seq := 2 }, slots := 0,
    items := 1 }

/-- C2 witness: a concrete successful put on `bufA` preserves the
coupling invariant and shows the acquire-mutate-release trace. -/
theorem C2_semaphore_coupling_witness :
    buf_inv bufA' ∧
    ((0 : Int) = 0 →
      [sev.waitSlots, sev.lock, sev.mutate, sev.unlock, sev.postItems] =
        [sev.waitSlots, sev.lock, sev.mutate, sev.unlock, sev.postItems] ∧
      bufA'.slots + 1 = bufA.slots ∧ bufA'.items = bufA.items + 1 ∧
      bufA'.q.count = bufA.q.count + 1) :=
  C2_semaphore_coupling.1 true bufA msgA 0 bufA'
    [sev.waitSlots, sev.lock, sev.mutate, sev.unlock, sev.postItems]
    ⟨by decide, by decide⟩ (by decide)

/-- C7 witness: the concrete put on `bufA` returns 0, not
InternalInconsistency. -/
theorem C7_inconsistency_unreachable_witness :
    buffer_put true bufA msgA =
      some (0, bufA', [sev.waitSlots, sev.lock, sev.mutate, sev.unlock,
        sev.postItems]) ∧ (0 : Int) ≠ -4 :=
  ⟨by decide,
    (C7_inconsistency_unreachable true bufA msgA ⟨by decide, by decide⟩).1
      0 bufA' [sev.waitSlots, sev.lock, sev.mutate, sev.unlock,
        sev.postItems] (by decide)⟩

lemma buffer_put_intr_stopped :
    ∀ (sched : List intr_oracle) (b : buffer_t) (m : msg_t) (r : Int)
      (b' : buffer_t),
      buffer_put_intr b m sched = some (r, b') → r = 1 → b' = b
  | [], b, m, r, b', heq, _ => by
    simp [buffer_put_intr] at heq
  | o :: rest, b, m, r, b', heq, hr => by
    subst hr
    simp only [buffer_put_intr] at heq
    split at heq
    · simp only [Option.some.injEq, Prod.mk.injEq] at heq
      exact heq.2.symm
    · split at heq
      · exact buffer_put_intr_stopped rest b m 1 b' heq rfl
      · split at heq
        · simp only [Option.some.injEq, Prod.mk.injEq] at heq
          exact absurd heq.1 (by norm_num)
        · split at heq
          · exact absurd heq (by simp)
          · rename_i hs0
            have hrs : b.slots - 1 + 1 = b.slots := by omega
            split at heq
            · simp only [Option.some.injEq, Prod.mk.injEq] at heq
              rw [← heq.2, hrs]
            · split at heq
              · simp only [Option.some.injEq, Prod.mk.injEq] at heq
                exact absurd heq.1 (by norm_num)
              · split at heq
                · simp only [Option.some.injEq, Prod.mk.injEq] at heq
                  rw [← heq.2, hrs]
                · split at heq
                  · simp only [Option.some.injEq, Prod.mk.injEq] at heq
                    exact absurd heq.1 (by norm_num)
                  · simp only [Option.some.injEq, Prod.mk.injEq] at heq
                    exact absurd heq.1 (by norm_num)

lemma buffer_get_intr_stopped :
    ∀ (sched : List intr_oracle) (b : buffer_t) (r : Int) (b' : buffer_t)
      (o : Option msg_t),
      buffer_get_intr b sched = some (r, b', o) → r = 1 →
      b' = b ∧ o = none
  | [], b, r, b', o, heq, _ => by
    simp [buffer_get_intr] at heq
  | orc :: rest, b, r, b', o, heq, hr => by
    subst hr
    simp only [buffer_get_intr] at heq
    split at heq
    · simp only [Option.some.injEq, Prod.mk.injEq] at heq
      exact ⟨heq.2.1.symm, heq.2.2.symm⟩
    · split at heq
      · exact buffer_get_intr_stopped rest b 1 b' o heq rfl
      · split at heq
        · simp only [Option.some.injEq, Prod.mk.injEq] at heq
          exact absurd heq.1 (by norm_num)
        · split at heq
          · exact absurd heq (by simp)
          · rename_i hs0
            have hrs : b.items - 1 + 1 = b.items := by omega
            split at heq
            · simp only [Option.some.injEq, Prod.mk.injEq] at heq
              constructor
              · rw [← heq.2.1, hrs]
              · exact heq.2.2.symm
            · split at heq
              · simp only [Option.some.injEq, Prod.mk.injEq] at heq
                exact absurd heq.1 (by norm_num)
              · split at heq
                · simp only [Option.some.injEq, Prod.mk.injEq] at heq
                  constructor
                  · rw [← heq.2.1, hrs]
                  · exact heq.2.2.symm
                · split at heq
                  · simp only [Option.some.injEq, Prod.mk.injEq] at heq
                    exact absurd heq.1 (by norm_num)
                  · simp only [Option.some.injEq, Prod.mk.injEq] at heq
                    exact absurd heq.1 (by norm_num)

/-- C3: whenever an interruptible put or get returns the stopped
outcome (1) — stop observed at loop entry, after acquiring a token, or
after acquiring the lock — the buffer state at return equals the state
at entry: queue contents untouched and zero net effect on the slots and
items counts (any acquired token was released), and for get no message
is written through `out`. -/
theorem C3_stopped_is_noop :
    (∀ (b : buffer_t) (m : msg_t) (sched : List intr_oracle) (r : Int)
        (b' : buffer_t),
      buffer_put_intr b m sched = some (r, b') → r = 1 → b' = b) ∧
    (∀ (b : buffer_t) (sched : List intr_oracle) (r : Int) (b' : buffer_t)
        (o : Option msg_t),
      buffer_get_intr b sched = some (r, b', o) → r = 1 →
      b' = b ∧ o = none) :=
  ⟨fun b m sched r b' heq hr => buffer_put_intr_stopped sched b m r b' heq hr,
    fun b sched r b' o heq hr => buffer_get_intr_stopped sched b r b' o heq hr⟩

/-- C3 witness: a schedule that acquires the slot token and then
observes the stop flag returns 1 and restores `bufA` exactly; the
mirrored get schedule on the full buffer behaves likewise. -/
theorem C3_stopped_is_noop_witness :
    buffer_put_intr bufA msgA
        [{ stop0 := false, waitRes := 0, stop1 := true, lockOk := true,
           stop2 := false }] = some (1, bufA) ∧
    bufA = bufA ∧
    buffer_get_intr bufA'
        [{ stop0 := false, waitRes := 0, stop1 := false, lockOk := true,
           stop2 := true }] = some (1, bufA', none) ∧
    bufA' = bufA' ∧ (none : Option msg_t) = none :=
  ⟨by decide, C3_stopped_is_noop.1 bufA msgA
      [{ stop0 := false, waitRes := 0, stop1 := true, lockOk := true,
         stop2 := false }] 1 bufA (by decide) rfl,
    by decide,
    (C3_stopped_is_noop.2 bufA'
      [{ stop0 := false, waitRes := 0, stop1 := false, lockOk := true,
         stop2 := true }] 1 bufA' none (by decide) rfl).1,
    (C3_stopped_is_noop.2 bufA'
      [{ stop0 := false, waitRes := 0, stop1 := false, lockOk := true,
         stop2 := true }] 1 bufA' none (by decide) rfl).2⟩

/-- C6: after any operation sequence from a freshly initialized queue of
capacity C, the held count equals successful pushes minus successful
pops and lies in [0, C]; every held sequence number is strictly below
`next_seq` and all held sequence numbers are pairwise distinct. -/
theorem C6_count_invariant (C : Int) (ops : List qop) (q0 : queue_t)
    (h0 : queue_init false C true = (0, some q0)) :
    (run_ops (q0, 0, 0) ops).1.count =
      ((run_ops (q0, 0, 0) ops).2.1 : Int) -
        ((run_ops (q0, 0, 0) ops).2.2 : Int) ∧
    0 ≤ (run_ops (q0, 0, 0) ops).1.count ∧
    (run_ops (q0, 0, 0) ops).1.count ≤ C ∧
    (∀ m ∈ (run_ops (q0, 0, 0) ops).1.buf,
      m.seq < (run_ops (q0, 0, 0) ops).1.next_seq) ∧
    (run_ops (q0, 0, 0) ops).1.buf.Pairwise (fun a b => a.seq ≠ b.seq) := by
  have hC : ¬ (C ≤ 0) := by
    intro h
    simp [queue_init, h] at h0
  have hq0 : q0 = { buf := [], capacity := C, next_seq := 1 } := by
    simp [queue_init, hC] at h0
    exact h0.symm
  have hwf0 : q_wf q0 := by
    subst hq0
    refine ⟨?_, ?_, ?_⟩
    · simp only [queue_t.count, List.length_nil, Nat.cast_zero]
      omega
    · intro m hm
      simp at hm
    · simp
  obtain ⟨hwf, hcap, hcount⟩ := run_ops_spec ops q0 0 0 hwf0
  obtain ⟨hle, hseq, hsort⟩ := hwf
  have hbuf0 : q0.buf.length = 0 := by
    rw [hq0]
    rfl
  have hcapC : q0.capacity = C := by
    rw [hq0]
  refine ⟨?_, ?_, ?_, hseq, List.Pairwise.imp (fun h => Nat.ne_of_lt h) hsort⟩
  · simp only [queue_t.count]
    omega
  · simp only [queue_t.count]
    omega
  · rw [hcap, hcapC] at hle
    exact hle

/-- Capacity-2 queue as produced by `queue_init`. -/
def qCap2 : queue_t := { buf := [], capacity := 2, next_seq := 1 }

/-- A short operation sequence: two pushes then a pop. -/
def opsC6 : List qop := [qop.push msgA, qop.push msgA, qop.pop]

/-- C6 witness: the invariant evaluated after two pushes and one pop on
a fresh capacity-2 queue. -/
theorem C6_count_invariant_witness :
    (run_ops (qCap2, 0, 0) opsC6).1.count =
      ((run_ops (qCap2, 0, 0) opsC6).2.1 : Int) -
        ((run_ops (qCap2, 0, 0) opsC6).2.2 : Int) ∧
    0 ≤ (run_ops (qCap2, 0, 0) opsC6).1.count ∧
    (run_ops (qCap2, 0, 0) opsC6).1.count ≤ 2 ∧
    (∀ m ∈ (run_ops (qCap2, 0, 0) opsC6).1.buf,
      m.seq < (run_ops (qCap2, 0, 0) opsC6).1.next_seq) ∧
    (run_ops (qCap2, 0, 0) opsC6).1.buf.Pairwise
      (fun a b => a.seq ≠ b.seq) :=
  C6_count_invariant 2 opsC6 qCap2 (by decide)

/-- C1: on any non-empty queue with pairwise-distinct sequence numbers,
`queue_pop` removes and returns the held message with the strictly
greatest priority, smallest sequence number among ties (it strictly
beats every message left behind); consequently, pushing any batch of
messages that fits the capacity of a fresh queue and then popping until
empty yields all of them in non-increasing priority order with
equal-priority runs in insertion order (sequence numbers 1, 2, ... are
assigned in insertion order by `tag_from`). -/
theorem C1_priority_selection_stability :
    (∀ q : queue_t, q.buf ≠ [] →
      q.buf.Pairwise (fun a b => a.seq ≠ b.seq) →
      ∃ out, queue_pop q =
          (0, { q with buf := q.buf.eraseIdx (best_index_to_pop q) },
            some out) ∧
        out ∈ q.buf ∧
        q.buf.Perm (out :: q.buf.eraseIdx (best_index_to_pop q)) ∧
        (∀ x ∈ q.buf.eraseIdx (best_index_to_pop q),
          out.priority > x.priority ∨
            (out.priority = x.priority ∧ out.seq < x.seq))) ∧
    (∀ (C : Int) (ms : List msg_t) (q0 : queue_t),
      (ms.length : Int) ≤ C →
      queue_init false C true = (0, some q0) →
      (push_all q0 ms).buf = tag_from 1 ms ∧
      (pop_all (push_all q0 ms)).Perm (tag_from 1 ms) ∧
      (pop_all (push_all q0 ms)).Pairwise
        (fun a b => a.priority > b.priority ∨
          (a.priority = b.priority ∧ a.seq < b.seq))) := by
  constructor
  · intro q hne hd
    obtain ⟨out, hpop, hstr, hperm⟩ := queue_pop_strict q hne hd
    exact ⟨out, hpop, (hperm.mem_iff).mpr (List.mem_cons_self out _),
      hperm, fun x hx => hstr x hx⟩
  · intro C ms q0 hlen h0
    have hC : ¬ (C ≤ 0) := by
      intro h
      simp [queue_init, h] at h0
    have hq0 : q0 = { buf := [], capacity := C, next_seq := 1 } := by
      simp [queue_init, hC] at h0
      exact h0.symm
    have hcap : q0.count + (ms.length : Int) ≤ q0.capacity := by
      rw [hq0]
      show ((List.length [] : Nat) : Int) + (ms.length : Int) ≤ C
      simpa using hlen
    obtain ⟨hbuf, _, _⟩ := push_all_spec ms q0 hcap
    have hns : q0.next_seq = 1 := by rw [hq0]
    have hbufnil : q0.buf = [] := by rw [hq0]
    rw [hbufnil, hns, List.nil_append] at hbuf
    have hd : (push_all q0 ms).buf.Pairwise (fun a b => a.seq ≠ b.seq) := by
      rw [hbuf]
      exact List.Pairwise.imp (fun h => Nat.ne_of_lt h) (tag_from_sorted ms 1)
    obtain ⟨hpm, hsorted⟩ :=
      pop_all_fuel_spec (push_all q0 ms).buf.length (push_all q0 ms)
        (le_refl _) hd
    refine ⟨hbuf, ?_, ?_⟩
    · refine List.Perm.trans hpm.symm ?_
      rw [hbuf]
    · exact List.Pairwise.imp (fun h => h) hsorted

/-- Capacity-3 queue as produced by `queue_init`. -/
def qCap3 : queue_t := { buf := [], capacity := 3, next_seq := 1 }

/-- The spec scenario batch: two priority-3 messages inserted first,
then one priority-7 message. -/
def msC1 : List msg_t :=
  [{ value := 1, priority := 3, producer_id := 1, seq := 0 },
   { value := 2, priority := 3, producer_id := 2, seq := 0 },
   { value := 3, priority := 7, producer_id := 3, seq := 0 }]

/-- C1 witness: the spec's three-message scenario on a fresh capacity-3
queue drains as a permutation of the tagged batch in non-increasing
priority order with the tie in insertion order. -/
theorem C1_priority_selection_stability_witness :
    (push_all qCap3 msC1).buf = tag_from 1 msC1 ∧
    (pop_all (push_all qCap3 msC1)).Perm (tag_from 1 msC1) ∧
    (pop_all (push_all qCap3 msC1)).Pairwise
      (fun a b => a.priority > b.priority ∨
        (a.priority = b.priority ∧ a.seq < b.seq)) :=
  C1_priority_selection_stability.2 3 msC1 qCap3 (by decide) (by decide)
